import Mathlib

/-!
Verification of the `combination_tests` crate (src/lib.rs).

The crate is a single declarative macro, `test_permutations!`, that expands a
scenario (a title, a list of variables each with a non-empty list of named
candidate values, a computation block and an assertion block) into one
generated test per element of the Cartesian product of the value lists.
Nesting of generated modules realises the hierarchy path
`title::var1::val1::...::varN::valN::test`, and the generated test body is
`let var1 = val1; ...; let varN = valN; let result = when_block; then_block`.

The embedding below models:
* `ValueSpec`, `VariableSpec`, `ScenarioSpec` — the in-memory shape of one
  macro invocation (every value is a named constant, since the macro creates
  a module per value identifier);
* `test_permutations_impl` — the recursive expansion performed by the
  `test_permutations_impl!` rules: the several arms of that macro implement
  exactly one recursion: with no multi-value variables left, emit a single
  test whose lets are the accumulated `single_lets`; otherwise open
  `mod var`, and for each value `val` of the first remaining variable open
  `mod val` and recurse with `single_lets ++ [(var, val)]` and the remaining
  variables;
* `test_permutations` — the entry arm: it wraps everything in `mod title`
  and starts the recursion with empty `single_lets`.  Its pattern
  `$(let $variable:ident = $($value:ident)or+;)+` requires at least one
  variable and at least one value per variable; an input violating this is
  rejected at expansion time, before any test is generated, which is
  modelled as an eager `Except.error`;
* `run_test` — the generated test body `let result = when_block; then_block`
  with failure of the computation modelled as `Except.error`.
-/

/-- A named candidate value.  The source requires each value to be an
identifier naming a constant, because a module is created per value name;
so a value is a (name, value) pair. -/
structure ValueSpec (α : Type) where
  name : String
  value : α
deriving DecidableEq

/-- One `let $variable = $value or $value or ...;` line of the macro input:
a variable name with its ordered list of candidate values. -/
structure VariableSpec (α : Type) where
  name : String
  values : List (ValueSpec α)
deriving DecidableEq

/-- The input of one `test_permutations!` invocation (the computation and
assertion blocks are passed through unchanged to every generated test and
are modelled separately, in `run_test`). -/
structure ScenarioSpec (α : Type) where
  title : String
  vars : List (VariableSpec α)
deriving DecidableEq

/-- A generated test case: its module path (the sequence of nested module
names leading to the generated `fn test`) and its bindings (the accumulated
`let` statements, each binding a variable name to the chosen named
constant). -/
structure TestCase (α : Type) where
  path : List String
  bindings : List (String × ValueSpec α)
deriving DecidableEq

variable {α : Type}

/-- Embedding of the `test_permutations_impl!` macro.  Given the accumulated
`single_lets` and the remaining multi-value variables, it produces the list
of generated tests, each as a pair of (module path below the current point,
accumulated lets).  The base arm (empty `multi_lets`) emits one test; every
other arm peels off the first remaining variable `v`, opens `mod v.name`,
and inside it, for each candidate value `val` in order, opens
`mod val.name` and recurses with `single_lets ++ [(v.name, val)]`. -/
def test_permutations_impl (single_lets : List (String × ValueSpec α)) :
    List (VariableSpec α) → List (List String × List (String × ValueSpec α))
  | [] => [([], single_lets)]
  | v :: rest =>
      (v.values.map (fun val =>
        (test_permutations_impl (single_lets ++ [(v.name, val)]) rest).map
          (fun tc => (v.name :: val.name :: tc.1, tc.2)))).flatten

/-- The successful expansion of a scenario: `mod title { ... }` around the
recursion started with empty `single_lets`. -/
def expand (s : ScenarioSpec α) : List (TestCase α) :=
  (test_permutations_impl [] s.vars).map
    (fun tc => { path := s.title :: tc.1, bindings := tc.2 })

/-- The errors the macro grammar rejects at expansion time: an invocation
with no variable lines, or a variable line with no values, does not match
the pattern `$(let $variable:ident = $($value:ident)or+;)+` and fails
before any test is generated. -/
inductive SpecificationError where
  | noVariables : SpecificationError
  | emptyValues : String → SpecificationError
deriving DecidableEq

/-- Embedding of the `test_permutations!` entry macro.  The grammar requires
at least one variable, each with at least one value; otherwise the
invocation is rejected eagerly (modelled as `Except.error`) and no test case
at all is produced.  On success the whole expansion is produced at once. -/
def test_permutations (s : ScenarioSpec α) :
    Except SpecificationError (List (TestCase α)) :=
  if s.vars.isEmpty then .error .noVariables
  else
    match s.vars.find? (fun v => v.values.isEmpty) with
    | some v => .error (.emptyValues v.name)
    | none => .ok (expand s)

/-- Outcome of running one generated test. -/
inductive Outcome (ε : Type) where
  | passed : Outcome ε
  | failed : Outcome ε
  | errored : ε → Outcome ε
deriving DecidableEq

/-- The environment a generated test body sees: each `let var = VAL;` binds
the variable name to the named constant's value. -/
def TestCase.env (tc : TestCase α) : List (String × α) :=
  tc.bindings.map (fun b => (b.1, b.2.value))

/-- Embedding of the generated test body
`let bindings...; let result = when_block; then_block`: the computation runs
first; if it fails (a panic in Rust, modelled as `Except.error`) the body
stops there with that error, otherwise the assertion block decides pass or
fail. -/
def run_test {ε ρ : Type} (tc : TestCase α)
    (when_block : List (String × α) → Except ε ρ)
    (then_block : List (String × α) → ρ → Bool) : Outcome ε :=
  match when_block tc.env with
  | .error e => .errored e
  | .ok result => if then_block tc.env result then .passed else .failed

/-- Modelled from the spec's words: "test cases are produced in the same
order as nested iteration where the first declared variable is the outermost
loop and the last declared variable is the innermost loop; within a
variable, values are iterated in declaration order".  Lists every
combination of (variable-name, chosen value) pairs in that loop order. -/
def nested_iteration (vars : List (VariableSpec α)) :
    List (List (String × ValueSpec α)) :=
  match vars with
  | [] => [[]]
  | v :: rest =>
      (v.values.map (fun val =>
        (nested_iteration rest).map (fun c => (v.name, val) :: c))).flatten

/-- The flattened path contribution of a list of (variable, chosen value)
pairs: variable name then value name, per pair, in order. -/
def flattenPairs (c : List (String × ValueSpec α)) : List String :=
  c.flatMap (fun b => [b.1, b.2.name])

theorem flattenPairs_nil : flattenPairs ([] : List (String × ValueSpec α)) = [] := rfl

theorem flattenPairs_cons (b : String × ValueSpec α) (c : List (String × ValueSpec α)) :
    flattenPairs (b :: c) = b.1 :: b.2.name :: flattenPairs c := rfl

/-- The recursion of `test_permutations_impl` lists exactly the combinations
of `nested_iteration`, in the same order, pairing each combination with its
flattened path and appending it to the accumulated lets. -/
theorem impl_eq_nested (acc : List (String × ValueSpec α))
    (vars : List (VariableSpec α)) :
    test_permutations_impl acc vars
      = (nested_iteration vars).map (fun c => (flattenPairs c, acc ++ c)) := by
  induction vars generalizing acc with
  | nil => simp [test_permutations_impl, nested_iteration, flattenPairs]
  | cons v rest ih =>
    simp only [test_permutations_impl, nested_iteration, List.map_flatten,
      List.map_map]
    congr 1
    apply List.map_congr_left
    intro val _
    simp only [Function.comp_apply]
    rw [ih]
    simp only [List.map_map]
    apply List.map_congr_left
    intro c _
    simp [flattenPairs_cons]

theorem flattenPairs_length (c : List (String × ValueSpec α)) :
    (flattenPairs c).length = 2 * c.length := by
  induction c with
  | nil => rfl
  | cons b t ih =>
    rw [flattenPairs_cons]
    simp [ih]
    omega

theorem sum_map_const_nat {β : Type} (l : List β) (k : Nat) :
    (l.map (fun _ => k)).sum = l.length * k := by
  induction l with
  | nil => simp
  | cons a t ih =>
    simp [ih, Nat.succ_mul]
    omega

/-- The number of combinations listed by nested iteration is the product of
the value-list lengths. -/
theorem nested_iteration_length (vars : List (VariableSpec α)) :
    (nested_iteration vars).length
      = (vars.map (fun v => v.values.length)).prod := by
  induction vars with
  | nil => rfl
  | cons v rest ih =>
    simp only [nested_iteration, List.length_flatten, List.map_map,
      Function.comp_def, List.length_map, ih]
    rw [sum_map_const_nat]
    simp [List.prod_cons]

/-- Membership in `nested_iteration`: a combination picks, per declared
variable in order, that variable's name together with one of its declared
values. -/
theorem mem_nested_iteration (vars : List (VariableSpec α))
    (c : List (String × ValueSpec α)) :
    c ∈ nested_iteration vars
      ↔ List.Forall₂
          (fun (b : String × ValueSpec α) (v : VariableSpec α) =>
            b.1 = v.name ∧ b.2 ∈ v.values) c vars := by
  induction vars generalizing c with
  | nil =>
    simp [nested_iteration, List.forall₂_nil_right_iff]
  | cons v rest ih =>
    simp only [nested_iteration, List.mem_flatten, List.mem_map,
      List.forall₂_cons_right_iff]
    constructor
    · rintro ⟨l, ⟨val, hval, rfl⟩, hc⟩
      rcases List.mem_map.1 hc with ⟨c2, hc2, rfl⟩
      exact ⟨(v.name, val), c2, ⟨rfl, hval⟩, (ih c2).1 hc2, rfl⟩
    · rintro ⟨b, c2, ⟨hb1, hb2⟩, h2, rfl⟩
      refine ⟨(nested_iteration rest).map (fun c => (v.name, b.2) :: c),
        ⟨b.2, hb2, rfl⟩, ?_⟩
      refine List.mem_map.2 ⟨c2, (ih c2).2 h2, ?_⟩
      rw [← hb1]

/-- With pairwise-distinct value names inside each variable, the flattened
path determines the combination. -/
theorem flattenPairs_inj_on (vars : List (VariableSpec α))
    (hnd : ∀ v ∈ vars, (v.values.map ValueSpec.name).Nodup) :
    ∀ c1 ∈ nested_iteration vars, ∀ c2 ∈ nested_iteration vars,
      flattenPairs c1 = flattenPairs c2 → c1 = c2 := by
  induction vars with
  | nil =>
    intro c1 h1 c2 h2 _
    simp [nested_iteration] at h1 h2
    rw [h1, h2]
  | cons v rest ih =>
    intro c1 h1 c2 h2 heq
    rw [mem_nested_iteration, List.forall₂_cons_right_iff] at h1 h2
    rcases h1 with ⟨b1, t1, ⟨hb11, hb12⟩, ht1, rfl⟩
    rcases h2 with ⟨b2, t2, ⟨hb21, hb22⟩, ht2, rfl⟩
    rw [flattenPairs_cons, flattenPairs_cons] at heq
    injection heq with e1 heq
    injection heq with e2 heq
    have hb : b1.2 = b2.2 :=
      List.inj_on_of_nodup_map (hnd v (List.mem_cons_self v rest)) hb12 hb22 e2
    have hbfull : b1 = b2 := Prod.ext (hb11.trans hb21.symm) hb
    have ht : t1 = t2 :=
      ih (fun w hw => hnd w (List.mem_cons_of_mem v hw))
        t1 ((mem_nested_iteration rest t1).2 ht1)
        t2 ((mem_nested_iteration rest t2).2 ht2) heq
    rw [hbfull, ht]

/-- With pairwise-distinct value names inside each variable, nested
iteration lists pairwise-distinct combinations. -/
theorem nested_iteration_nodup (vars : List (VariableSpec α))
    (hnd : ∀ v ∈ vars, (v.values.map ValueSpec.name).Nodup) :
    (nested_iteration vars).Nodup := by
  induction vars with
  | nil => simp [nested_iteration]
  | cons v rest ih =>
    rw [nested_iteration, List.nodup_flatten]
    constructor
    · intro l hl
      rcases List.mem_map.1 hl with ⟨val, _, rfl⟩
      exact List.Nodup.map (fun c1 c2 h => by injection h)
        (ih (fun w hw => hnd w (List.mem_cons_of_mem v hw)))
    · rw [List.pairwise_map]
      have hp : List.Pairwise (fun x y : ValueSpec α => x.name ≠ y.name) v.values :=
        List.pairwise_map.mp (hnd v (List.mem_cons_self v rest))
      refine hp.imp ?_
      intro x y hxy a ha1 ha2
      rcases List.mem_map.1 ha1 with ⟨c1, _, rfl⟩
      rcases List.mem_map.1 ha2 with ⟨c2, _, he⟩
      injection he with he1 _
      exact hxy (congrArg ValueSpec.name (congrArg Prod.snd he1)).symm

/-- Successful expansion, fully characterised: one test case per combination
of nested iteration, in the same order, the path being the title followed by
the flattened pairs and the bindings the combination itself. -/
theorem expand_eq (s : ScenarioSpec α) :
    expand s = (nested_iteration s.vars).map
      (fun c => { path := s.title :: flattenPairs c, bindings := c }) := by
  rw [expand, impl_eq_nested]
  simp [List.map_map]

/-- A successful run of the entry macro returns exactly the expansion. -/
theorem ok_eq_expand {s : ScenarioSpec α} {l : List (TestCase α)}
    (h : test_permutations s = Except.ok l) : l = expand s := by
  rw [test_permutations] at h
  split at h
  · simp at h
  · split at h
    · simp at h
    · injection h with h
      exact h.symm

/-- An invocation with no variables, or with a variable holding no values,
is rejected with an error and no test case is returned. -/
theorem error_of_invalid (s : ScenarioSpec α)
    (h : s.vars = [] ∨ ∃ v ∈ s.vars, v.values = []) :
    ∃ e, test_permutations s = Except.error e := by
  rw [test_permutations]
  rcases h with h | ⟨v, hv, hve⟩
  · simp [h, List.isEmpty_nil]
  · have hne : s.vars.isEmpty = false := by
      cases hs : s.vars with
      | nil => rw [hs] at hv; cases hv
      | cons a t => rfl
    rw [hne]
    simp only [Bool.false_eq_true, if_false]
    have hsome : ∃ w, s.vars.find? (fun v => v.values.isEmpty) = some w := by
      have hs : ((s.vars.find? (fun v => v.values.isEmpty)).isSome : Prop) := by
        rw [List.find?_isSome]
        exact ⟨v, hv, by simp [hve]⟩
      exact Option.isSome_iff_exists.mp hs
    rcases hsome with ⟨w, hw⟩
    rw [hw]
    exact ⟨.emptyValues w.name, rfl⟩

/-- Position lookup inside the flattened pairs: the pair at position `i`
contributes the variable name at flattened position `2*i` and the value name
at flattened position `2*i + 1`. -/
theorem flattenPairs_getElem (c : List (String × ValueSpec α)) (i : Nat)
    (b : String × ValueSpec α) (hb : getElem? c i = some b) :
    getElem? (flattenPairs c) (2*i) = some b.1
      ∧ getElem? (flattenPairs c) (2*i+1) = some b.2.name := by
  induction c generalizing i with
  | nil => simp at hb
  | cons x t ih =>
    cases i with
    | zero =>
      simp only [List.getElem?_cons_zero, Option.some.injEq] at hb
      subst hb
      constructor <;> simp [flattenPairs_cons]
    | succ j =>
      have h1 : 2 * (j+1) = 2*j + 1 + 1 := by ring
      rw [flattenPairs_cons, h1]
      simp only [List.getElem?_cons_succ]
      exact ih j (by simpa using hb)

/-- Positional reading of `List.Forall₂`: related lists have related entries
at every position. -/
theorem forall2_getElem {β γ : Type} {R : β → γ → Prop} :
    ∀ {c : List β} {vs : List γ}, List.Forall₂ R c vs →
      ∀ (i : Nat) (v : γ), getElem? vs i = some v →
        ∃ b, getElem? c i = some b ∧ R b v := by
  intro c vs h
  induction h with
  | nil => intro i v hv; simp at hv
  | @cons x y t ts hR htail ih =>
    intro i v hv
    cases i with
    | zero =>
      simp only [List.getElem?_cons_zero, Option.some.injEq] at hv
      subst hv
      exact ⟨x, by simp, hR⟩
    | succ j =>
      simp only [List.getElem?_cons_succ] at hv ⊢
      exact ih j v hv

/-- Projection of a combination to its variable names, from the positional
relation of `mem_nested_iteration`. -/
theorem forall2_map_fst {c : List (String × ValueSpec α)}
    {vs : List (VariableSpec α)}
    (h : List.Forall₂
      (fun (b : String × ValueSpec α) (v : VariableSpec α) =>
        b.1 = v.name ∧ b.2 ∈ v.values) c vs) :
    c.map Prod.fst = vs.map VariableSpec.name := by
  induction h with
  | nil => rfl
  | cons h1 _ ih => simp [ih, h1.1]

/-! Concrete inputs taken from the crate's own `mod tests`: the named
constants `A1..C300` and the scenarios exercised there, plus a
duplicate-value scenario and an empty-value scenario. -/

def A1 : ValueSpec Int := ⟨"A1", 1⟩

def A2 : ValueSpec Int := ⟨"A2", 2⟩

def A3 : ValueSpec Int := ⟨"A3", 3⟩

def B10 : ValueSpec Int := ⟨"B10", 10⟩

def B20 : ValueSpec Int := ⟨"B20", 20⟩

def B30 : ValueSpec Int := ⟨"B30", 30⟩

def C100 : ValueSpec Int := ⟨"C100", 100⟩

def C200 : ValueSpec Int := ⟨"C200", 200⟩

def C300 : ValueSpec Int := ⟨"C300", 300⟩

/-- The crate's test `expands_for_2_variables_each_with_2_values`. -/
def scenario2x2 : ScenarioSpec Int :=
  ⟨"expands_for_2_variables_each_with_2_values",
    [⟨"a", [A1, A2]⟩, ⟨"b", [B10, B20]⟩]⟩

/-- The crate's test `expands_for_3_variables_each_with_3_values`. -/
def scenario3x3x3 : ScenarioSpec Int :=
  ⟨"expands_for_3_variables_each_with_3_values",
    [⟨"a", [A1, A2, A3]⟩, ⟨"b", [B10, B20, B30]⟩,
      ⟨"c", [C100, C200, C300]⟩]⟩

/-- The crate's test `expands_for_1_variable_with_1_value`. -/
def scenario1x1 : ScenarioSpec Int :=
  ⟨"expands_for_1_variable_with_1_value", [⟨"a", [A1]⟩]⟩

/-- A scenario whose single variable repeats the same value name twice. -/
def scenarioDup : ScenarioSpec Int := ⟨"duplicate_value", [⟨"a", [A1, A1]⟩]⟩

/-- A scenario whose single variable has no values at all. -/
def scenarioNoValues : ScenarioSpec Int := ⟨"no_values", [⟨"a", []⟩]⟩

/-- The first test case generated for `scenario2x2`. -/
def tcAB : TestCase Int :=
  ⟨["expands_for_2_variables_each_with_2_values", "a", "A1", "b", "B10"],
    [("a", A1), ("b", B10)]⟩

/-- The one test case generated (twice) for `scenarioDup`. -/
def dupCase : TestCase Int := ⟨["duplicate_value", "a", "A1"], [("a", A1)]⟩

/-- C1: for every scenario the expander accepts (at least one variable, each
with at least one value, so the expansion succeeds), the number of generated
test cases is exactly the product of the variables' value-list lengths. -/
theorem c1_case_count (s : ScenarioSpec α) (l : List (TestCase α))
    (h : test_permutations s = Except.ok l) :
    l.length = (s.vars.map (fun v => v.values.length)).prod := by
  rw [ok_eq_expand h, expand_eq, List.length_map, nested_iteration_length]

theorem c1_case_count_witness :
    (expand scenario3x3x3).length
        = (scenario3x3x3.vars.map (fun v => v.values.length)).prod
      ∧ (scenario3x3x3.vars.map (fun v => v.values.length)).prod = 27 :=
  ⟨c1_case_count scenario3x3x3 (expand scenario3x3x3) rfl, by decide⟩

/-- C2: the generated sequence is exactly nested iteration — first declared
variable outermost, last declared variable innermost, values in declaration
order — each combination carrying its title-prefixed flattened path. -/
theorem c2_ordering (s : ScenarioSpec α) (l : List (TestCase α))
    (h : test_permutations s = Except.ok l) :
    l = (nested_iteration s.vars).map
      (fun c => { path := s.title :: flattenPairs c, bindings := c }) := by
  rw [ok_eq_expand h, expand_eq]

theorem c2_ordering_witness :
    expand scenario2x2 = (nested_iteration scenario2x2.vars).map
        (fun c => { path := scenario2x2.title :: flattenPairs c, bindings := c })
      ∧ (expand scenario2x2).map TestCase.bindings
        = [[("a", A1), ("b", B10)], [("a", A1), ("b", B20)],
            [("a", A2), ("b", B10)], [("a", A2), ("b", B20)]] :=
  ⟨c2_ordering scenario2x2 (expand scenario2x2) rfl, by decide⟩

/-- C3: every generated test case's path is the scenario title followed by
the flattened (variable-name, chosen-value-name) pairs in declaration
order, so its total length is exactly 1 + 2 * (number of variables). -/
theorem c3_path_shape (s : ScenarioSpec α) (l : List (TestCase α))
    (tc : TestCase α) (h : test_permutations s = Except.ok l) (htc : tc ∈ l) :
    tc.path = s.title :: flattenPairs tc.bindings
      ∧ tc.path.length = 1 + 2 * s.vars.length := by
  rw [ok_eq_expand h, expand_eq] at htc
  rcases List.mem_map.1 htc with ⟨c, hc, rfl⟩
  refine ⟨rfl, ?_⟩
  have hlen : c.length = s.vars.length :=
    ((mem_nested_iteration s.vars c).1 hc).length_eq
  show (s.title :: flattenPairs c).length = 1 + 2 * s.vars.length
  rw [List.length_cons, flattenPairs_length, hlen]
  omega

theorem c3_path_shape_witness :
    tcAB.path = scenario2x2.title :: flattenPairs tcAB.bindings
      ∧ tcAB.path.length = 1 + 2 * scenario2x2.vars.length :=
  c3_path_shape scenario2x2 (expand scenario2x2) tcAB rfl (by decide)

/-- C4: when every variable's value-name list is pairwise distinct, the
generated test cases have pairwise distinct paths. -/
theorem c4_path_uniqueness (s : ScenarioSpec α) (l : List (TestCase α))
    (h : test_permutations s = Except.ok l)
    (hnd : ∀ v ∈ s.vars, (v.values.map ValueSpec.name).Nodup) :
    (l.map TestCase.path).Nodup := by
  rw [ok_eq_expand h, expand_eq, List.map_map]
  apply List.Nodup.map_on ?_ (nested_iteration_nodup s.vars hnd)
  intro c1 h1 c2 h2 he
  have he2 : s.title :: flattenPairs c1 = s.title :: flattenPairs c2 := he
  injection he2 with _ he3
  exact flattenPairs_inj_on s.vars hnd c1 h1 c2 h2 he3

theorem c4_path_uniqueness_witness :
    ((expand scenario2x2).map TestCase.path).Nodup :=
  c4_path_uniqueness scenario2x2 (expand scenario2x2) rfl (by decide)

/-- C5: every generated test case's bindings list has exactly one entry per
declared variable — its keys are the variable names in declaration order
(hence unique when the variable names are), and each entry's value is one of
that variable's declared values. -/
theorem c5_bindings (s : ScenarioSpec α) (l : List (TestCase α))
    (tc : TestCase α) (h : test_permutations s = Except.ok l) (htc : tc ∈ l) :
    tc.bindings.map Prod.fst = s.vars.map VariableSpec.name
      ∧ List.Forall₂
          (fun (b : String × ValueSpec α) (v : VariableSpec α) =>
            b.1 = v.name ∧ b.2 ∈ v.values) tc.bindings s.vars
      ∧ ((s.vars.map VariableSpec.name).Nodup →
          (tc.bindings.map Prod.fst).Nodup) := by
  rw [ok_eq_expand h, expand_eq] at htc
  rcases List.mem_map.1 htc with ⟨c, hc, rfl⟩
  have hf := (mem_nested_iteration s.vars c).1 hc
  have hfst : c.map Prod.fst = s.vars.map VariableSpec.name := forall2_map_fst hf
  exact ⟨hfst, hf, fun hnd => hfst ▸ hnd⟩

theorem c5_bindings_witness :
    tcAB.bindings.map Prod.fst = scenario2x2.vars.map VariableSpec.name
      ∧ List.Forall₂
          (fun (b : String × ValueSpec Int) (v : VariableSpec Int) =>
            b.1 = v.name ∧ b.2 ∈ v.values) tcAB.bindings scenario2x2.vars
      ∧ ((scenario2x2.vars.map VariableSpec.name).Nodup →
          (tcAB.bindings.map Prod.fst).Nodup) :=
  c5_bindings scenario2x2 (expand scenario2x2) tcAB rfl (by decide)

/-- C6: a scenario with no variables, or with a variable holding zero
values, is rejected eagerly with a specification error: the result is an
error, never a (full or partial) list of test cases. -/
theorem c6_specification_error (s : ScenarioSpec α)
    (h : s.vars = [] ∨ ∃ v ∈ s.vars, v.values = []) :
    ∃ e, test_permutations s = Except.error e
      ∧ ∀ l : List (TestCase α), test_permutations s ≠ Except.ok l := by
  rcases error_of_invalid s h with ⟨e, he⟩
  refine ⟨e, he, fun l hl => ?_⟩
  rw [he] at hl
  cases hl

theorem c6_specification_error_witness :
    ∃ e, test_permutations scenarioNoValues = Except.error e
      ∧ ∀ l : List (TestCase Int),
          test_permutations scenarioNoValues ≠ Except.ok l :=
  c6_specification_error scenarioNoValues
    (Or.inr ⟨⟨"a", []⟩, by decide, rfl⟩)

/-- C7: the generated test body runs the computation first; if it fails,
the case's outcome is that error and the assertion block is never consulted
— the outcome is the same whatever the assertion block is. -/
theorem c7_assertion_skipped {ε ρ : Type} (tc : TestCase α)
    (when_block : List (String × α) → Except ε ρ)
    (then_block : List (String × α) → ρ → Bool) (e : ε)
    (h : when_block tc.env = Except.error e) :
    run_test tc when_block then_block = Outcome.errored e
      ∧ ∀ other_assertion : List (String × α) → ρ → Bool,
          run_test tc when_block then_block
            = run_test tc when_block other_assertion := by
  constructor
  · rw [run_test, h]
  · intro other_assertion
    rw [run_test, run_test, h]

theorem c7_assertion_skipped_witness :
    run_test tcAB (fun _ => (Except.error 0 : Except Nat Int))
        (fun _ _ => true) = Outcome.errored 0
      ∧ ∀ other_assertion : List (String × Int) → Int → Bool,
          run_test tcAB (fun _ => (Except.error 0 : Except Nat Int))
              (fun _ _ => true)
            = run_test tcAB (fun _ => (Except.error 0 : Except Nat Int))
                other_assertion :=
  c7_assertion_skipped tcAB (fun _ => (Except.error 0 : Except Nat Int))
    (fun _ _ => true) 0 rfl

/-- C8 counterexample: with a duplicated value name in one variable, the
expander emits the same test case twice — identical path and bindings — so
the duplicate occurrences do not produce distinct test cases. -/
theorem c8_counterexample :
    test_permutations scenarioDup = Except.ok [dupCase, dupCase]
      ∧ ¬ (List.map TestCase.path [dupCase, dupCase]).Nodup :=
  ⟨rfl, by decide⟩

/-- C8 (amended): duplicate value names within a variable are permitted —
expansion still succeeds with no error — and each occurrence contributes its
own entry, the output length counting occurrences with multiplicity; the
entries produced for duplicate occurrences, however, are identical test
cases, not distinct ones. -/
theorem c8_duplicates_permitted (s : ScenarioSpec α)
    (h1 : s.vars ≠ []) (h2 : ∀ v ∈ s.vars, v.values ≠ []) :
    ∃ l, test_permutations s = Except.ok l
      ∧ l.length = (s.vars.map (fun v => v.values.length)).prod := by
  refine ⟨expand s, ?_, ?_⟩
  · rw [test_permutations]
    have hne : s.vars.isEmpty = false := by
      cases hs : s.vars with
      | nil => exact absurd hs h1
      | cons a t => rfl
    rw [hne]
    simp only [Bool.false_eq_true, if_false]
    have hfind : s.vars.find? (fun v => v.values.isEmpty) = none := by
      rw [List.find?_eq_none]
      intro v hv
      simpa [List.isEmpty_iff] using h2 v hv
    rw [hfind]
  · rw [expand_eq, List.length_map, nested_iteration_length]

theorem c8_duplicates_permitted_witness :
    ∃ l, test_permutations scenarioDup = Except.ok l
      ∧ l.length = (scenarioDup.vars.map (fun v => v.values.length)).prod :=
  c8_duplicates_permitted scenarioDup (by decide) (by decide)

/-- C9: a variable with exactly one value goes through the same recursion
arm as a multi-value one — it still contributes its (variable-name,
value-name) pair of path segments and one binding to every generated case,
one nesting level, and multiplies the number of cases by one. -/
theorem c9_single_value (acc : List (String × ValueSpec α)) (n : String)
    (x : ValueSpec α) (rest : List (VariableSpec α)) :
    test_permutations_impl acc (⟨n, [x]⟩ :: rest)
        = (test_permutations_impl (acc ++ [(n, x)]) rest).map
            (fun tc => (n :: x.name :: tc.1, tc.2))
      ∧ (test_permutations_impl acc (⟨n, [x]⟩ :: rest)).length
          = (test_permutations_impl (acc ++ [(n, x)]) rest).length := by
  constructor
  · simp [test_permutations_impl]
  · simp [test_permutations_impl]

/-- C10: in every generated test case, the binding for the i-th declared
variable and the value-name path segment for that variable come from the
same chosen value: the bound pair is (variable name, chosen value) and the
path segment at position 2*i+2 is that chosen value's name. -/
theorem c10_path_bindings_agree (s : ScenarioSpec α) (l : List (TestCase α))
    (tc : TestCase α) (h : test_permutations s = Except.ok l) (htc : tc ∈ l)
    (i : Nat) (v : VariableSpec α) (hv : getElem? s.vars i = some v) :
    ∃ vs : ValueSpec α, vs ∈ v.values
      ∧ getElem? tc.bindings i = some (v.name, vs)
      ∧ getElem? tc.path (2*i+2) = some vs.name := by
  rw [ok_eq_expand h, expand_eq] at htc
  rcases List.mem_map.1 htc with ⟨c, hc, rfl⟩
  have hf := (mem_nested_iteration s.vars c).1 hc
  rcases forall2_getElem hf i v hv with ⟨b, hb, hr⟩
  refine ⟨b.2, hr.2, ?_, ?_⟩
  · show getElem? c i = some (v.name, b.2)
    rw [hb]
    exact congrArg some (Prod.ext hr.1 rfl)
  · show getElem? (s.title :: flattenPairs c) (2*i+2) = some b.2.name
    have h21 : 2*i+2 = (2*i+1) + 1 := by ring
    rw [h21, List.getElem?_cons_succ]
    exact (flattenPairs_getElem c i b hb).2

theorem c10_path_bindings_agree_witness :
    ∃ vs : ValueSpec Int,
      vs ∈ (⟨"b", [B10, B20]⟩ : VariableSpec Int).values
        ∧ getElem? tcAB.bindings 1
            = some ((⟨"b", [B10, B20]⟩ : VariableSpec Int).name, vs)
        ∧ getElem? tcAB.path (2*1+2) = some vs.name :=
  c10_path_bindings_agree scenario2x2 (expand scenario2x2) tcAB rfl
    (by decide) 1 ⟨"b", [B10, B20]⟩ rfl
